import Mathlib

/-!
Shallow embedding of the incremental nonbonded energy evaluation engine of
the repository (src/src/energy.h, `Faunus::Energy::Nonbonded`), together
with the data model it is instantiated with.  The template parameters
`Tspace`, `Tpairpot` and `Tspace::Tchange` of the C++ code are not defined
under src/ (core.h is absent), so the particle store, group and change-set
data model is modelled from the specification; the evaluator itself
(`i2i`, `g2g`, `index2index`, `energy`) is translated from energy.h.

Machine doubles are modelled as exact rationals; container indexing is
total and returns an `Option`, so an out-of-bounds access of the C++ code
shows up as `none`.
-/

namespace Faunus

/-- A particle: a position (the only attribute the evaluator itself reads,
via `a.pos`) plus an opaque payload `attr` for whatever the pair potential
needs (charge, dipole moment, ...). -/
structure Particle (V A : Type) where
  pos : V
  attr : A
deriving DecidableEq

/-- Modelled from the spec: the particle store and groups (`Tspace` of
energy.h; its definition, core.h, is not under src/).  `p` is the
authoritative particle sequence, `groups` is the list of groups, each an
ordered collection of particle indices into `p`, and `vdist` is the
geometry's black-box distance function (`spc.geo.vdist`). -/
structure Space (V A : Type) where
  p : List (Particle V A)
  groups : List (List Nat)
  vdist : V → V → V

/-- Modelled from the spec: one entry of a change set: the index of a
touched group (`d.index` in energy.h) and optionally the exact particle
indices changed within it. -/
structure GroupChange where
  index : Nat
  atoms : List Nat
deriving DecidableEq

/-- Modelled from the spec: the change set (`Tspace::Tchange` of energy.h,
whose definition is not under src/): the record of which groups a proposed
move touched. -/
structure Change where
  groups : List GroupChange
deriving DecidableEq

/-- `change.empty()`: a change set touching no group. -/
def Change.empty (c : Change) : Bool :=
  c.groups.isEmpty

/-- `change.touchedGroupIndex()`: the list of touched group indices, in
the order produced by the proposer (invariant: sorted and unique). -/
def Change.touchedGroupIndex (c : Change) : List Nat :=
  c.groups.map (fun d => d.index)

/-- `std::binary_search` on a sorted list: halving search comparing the
middle element, descending into the upper or lower half. -/
def binarySearch (l : List Nat) (x : Nat) : Bool :=
  if h : l = [] then false
  else
    let m := l.length / 2
    let v := l.getD m 0
    if v < x then binarySearch (l.drop (m + 1)) x
    else if x < v then binarySearch (l.take m) x
    else true
termination_by l.length
decreasing_by
  · simp only [List.length_drop]
    have : l.length ≠ 0 := fun hn => h (List.eq_nil_of_length_eq_zero hn)
    omega
  · simp only [List.length_take]
    have : l.length ≠ 0 := fun hn => h (List.eq_nil_of_length_eq_zero hn)
    omega

/-- Dereference a group: look the group up by its index and then look each
of its particle indices up in the particle store; `none` as soon as any
access is out of bounds (iterating a C++ group yields its particles). -/
def Space.group? {V A : Type} (spc : Space V A) (gi : Nat) : Option (List (Particle V A)) :=
  match spc.groups[gi]? with
  | none => none
  | some g => g.mapM (fun pi => spc.p[pi]?)

/-- Total variant of `Space.group?` used to state the value an in-bounds
evaluation returns: out-of-range particle indices are skipped (under the
in-bounds preconditions it coincides with `Space.group?`). -/
def Space.groupD {V A : Type} (spc : Space V A) (gi : Nat) : List (Particle V A) :=
  (spc.groups.getD gi []).filterMap (fun pi => spc.p[pi]?)

/-- The nonbonded energy functor of energy.h: holds the pair potential
`pairpot(a, b, r)`. -/
structure Nonbonded (V A : Type) where
  pairpot : Particle V A → Particle V A → V → ℚ

variable {V A : Type}

/-- `Nonbonded::i2i`: `pairpot(a, b, spc.geo.vdist(a.pos, b.pos))`. -/
def Nonbonded.i2i (nb : Nonbonded V A) (spc : Space V A) (a b : Particle V A) : ℚ :=
  nb.pairpot a b (spc.vdist a.pos b.pos)

/-- `Nonbonded::g2g`: `u = 0; for i in g1: for j in g2: u += i2i(spc,i,j)`. -/
def Nonbonded.g2g (nb : Nonbonded V A) (spc : Space V A)
    (g1 g2 : List (Particle V A)) : ℚ :=
  g1.foldl (fun u i => g2.foldl (fun u j => u + nb.i2i spc i j) u) 0

/-- `Nonbonded::index2index`: the same double loop over explicit index
lists, accessing `spc.p[i]` and `spc.p[j]`; `none` on out-of-bounds. -/
def Nonbonded.index2index? (nb : Nonbonded V A) (spc : Space V A)
    (index1 index2 : List Nat) : Option ℚ :=
  index1.foldlM (fun u i =>
    index2.foldlM (fun u j =>
      (spc.p[i]?).bind fun a =>
      (spc.p[j]?).bind fun b =>
      some (u + nb.i2i spc a b)) u) 0

/-- The lazily-filtered list of static group indices of energy.h:
`view::ints(0, oldspc.groups.size()) | view::remove_if(binary_search(moved, i))`. -/
def staticIndex (n : Nat) (moved : List Nat) : List Nat :=
  (List.range n).filter (fun i => !binarySearch moved i)

/-- The body of the inner (`for i in fixed`) loop of `Nonbonded::energy`:
the two accumulations `uold += g2g(oldspc, oldspc.groups[d.index],
oldspc.groups[i])` and `unew += g2g(newspc, newspc.groups[d.index],
newspc.groups[i])`, with each of the four container accesses surfacing
out-of-bounds as `none`. -/
def energyStep (nb : Nonbonded V A) (oldspc newspc : Space V A)
    (d : GroupChange) (u : ℚ × ℚ) (i : Nat) : Option (ℚ × ℚ) :=
  (oldspc.group? d.index).bind fun gdo =>
  (oldspc.group? i).bind fun gio =>
  (newspc.group? d.index).bind fun gdn =>
  (newspc.group? i).bind fun gin =>
  some (u.1 + nb.g2g oldspc gdo gio, u.2 + nb.g2g newspc gdn gin)

/-- `Nonbonded::energy(oldspc, newspc, change)`: if the change set is
empty return `(0,0)`; otherwise for every touched record `d` of
`change.groups` and every static index `i` run `energyStep` (the loop
body).  Container accesses happen inside the loops, so an out-of-bounds
access surfaces as `none` exactly when the loops reach it. -/
def Nonbonded.energy? (nb : Nonbonded V A) (oldspc newspc : Space V A)
    (change : Change) : Option (ℚ × ℚ) :=
  if change.empty then some (0, 0)
  else
    change.groups.foldlM (fun (u : ℚ × ℚ) d =>
      (staticIndex oldspc.groups.length change.touchedGroupIndex).foldlM
        (energyStep nb oldspc newspc d) u)
      (0, 0)

/-- The C++ `energy` takes its space and change arguments by mutable
reference; the state-passing translation of the call therefore also
returns the post-call state of the three arguments.  The body of
energy.h's `energy` contains no assignment to `oldspc`, `newspc` or
`change`, so the translation returns them as received. -/
def Nonbonded.energyCall (nb : Nonbonded V A) (oldspc newspc : Space V A)
    (change : Change) :
    (Space V A × Space V A × Change) × Option (ℚ × ℚ) :=
  ((oldspc, newspc, change), nb.energy? oldspc newspc change)

/-- Modelled from the spec: the Energy Drift Tracker (no drift-tracker
code is present under src/): a running energy total updated on move
acceptance. -/
structure DriftTracker where
  running : ℚ

/-- Modelled from the spec: `applyDelta(deltaOld, deltaNew)` performs
`running += deltaNew - deltaOld`. -/
def DriftTracker.applyDelta (t : DriftTracker) (deltaOld deltaNew : ℚ) : DriftTracker :=
  ⟨t.running + (deltaNew - deltaOld)⟩

/-- The set of fixed (static) group indices as the spec describes it: the
complement, within the group-index universe, of the touched set. -/
def fixedList (n : Nat) (moved : List Nat) : List Nat :=
  (List.range n).filter (fun i => decide (i ∉ moved))

/-- The nested touched-by-static sum of group-pair energies that
`Nonbonded::energy` accumulates for one store. -/
def movedStaticSum (nb : Nonbonded V A) (spc : Space V A)
    (ds : List GroupChange) (fixd : List Nat) : ℚ :=
  (ds.map (fun d =>
    (fixd.map (fun i => nb.g2g spc (spc.groupD d.index) (spc.groupD i))).sum)).sum

/-- The evaluator's documented preconditions: the change-set invariant
(touched indices sorted and unique), touched indices in range of both
stores, all group-held particle indices in range of the respective
particle store, and identical group partitioning (same group count). -/
def ValidInput {V A : Type} (o n : Space V A) (c : Change) : Prop :=
  List.Pairwise (· < ·) c.touchedGroupIndex ∧
  (∀ d ∈ c.groups, d.index < o.groups.length) ∧
  (∀ d ∈ c.groups, d.index < n.groups.length) ∧
  (∀ g ∈ o.groups, ∀ pi ∈ g, pi < o.p.length) ∧
  (∀ g ∈ n.groups, ∀ pi ∈ g, pi < n.p.length) ∧
  n.groups.length = o.groups.length

instance {V A : Type} (o n : Space V A) (c : Change) :
    Decidable (ValidInput o n c) := by
  unfold ValidInput
  infer_instance

/-! ### Concrete instances used in witnesses and counterexamples -/

/-- Constant-1 pair potential over trivial positions: the call-count
instrumentation potential (each evaluated pair contributes exactly 1). -/
def onePotU : Nonbonded Unit Unit := ⟨fun _ _ _ => 1⟩

/-- A particle with trivial position and payload. -/
def unitParticle : Particle Unit Unit := ⟨(), ()⟩

/-- Empty system: no particles, no groups. -/
def emptySpaceU : Space Unit Unit := ⟨[], [], fun _ _ => ()⟩

/-- Two singleton groups over two particles. -/
def twoGroupSpaceU : Space Unit Unit :=
  ⟨[unitParticle, unitParticle], [[0], [1]], fun _ _ => ()⟩

/-- One singleton group over the same two particles (fewer groups than
`twoGroupSpaceU`). -/
def oneGroupSpaceU : Space Unit Unit :=
  ⟨[unitParticle, unitParticle], [[0]], fun _ _ => ()⟩

/-- The spec's concrete scenario potential: `1/r` on signed 1-D
separations. -/
def invPot : Nonbonded ℚ Unit := ⟨fun _ _ r => 1 / r⟩

/-- Old store of the spec scenario: particles at 0, -2, 2; static group
{0, 1} and touched group {2}. -/
def scenarioOld : Space ℚ Unit :=
  ⟨[⟨0, ()⟩, ⟨-2, ()⟩, ⟨2, ()⟩], [[0, 1], [2]], fun a b => a - b⟩

/-- New store of the spec scenario: particle 2 moved to 3. -/
def scenarioNew : Space ℚ Unit :=
  ⟨[⟨0, ()⟩, ⟨-2, ()⟩, ⟨3, ()⟩], [[0, 1], [2]], fun a b => a - b⟩

/-- Three singleton groups over id-tagged particles (ids 0, 1, 2). -/
def threeGroupSpace : Space Unit Nat :=
  ⟨[⟨(), 0⟩, ⟨(), 1⟩, ⟨(), 2⟩], [[0], [1], [2]], fun _ _ => ()⟩

/-- A potential that differs from the constant-1 potential exactly on
pairs in which both particles carry a touched-group id (0 or 1). -/
def skewPot : Particle Unit Nat → Particle Unit Nat → Unit → ℚ :=
  fun a b _ => if a.attr ≤ 1 ∧ b.attr ≤ 1 then 100 else 1

/-! ### Helper lemmas on folds, lookups and binary search -/

/-- A monadic left fold in `Option` whose step never fails on the list's
elements collapses to a pure left fold. -/
theorem foldlM_eq_foldl {α β : Type} (f : β → α → Option β) (g : β → α → β)
    (l : List α) (h : ∀ b : β, ∀ a ∈ l, f b a = some (g b a)) (b : β) :
    l.foldlM f b = some (l.foldl g b) := by
  induction l generalizing b with
  | nil => rfl
  | cons x xs ih =>
      rw [List.foldlM_cons, h b x (List.mem_cons_self x xs), List.foldl_cons]
      exact ih (fun b a ha => h b a (List.mem_cons_of_mem _ ha)) (g b x)

/-- A monadic left fold in `Option` fails if some element of the list
makes the step fail from every accumulator. -/
theorem foldlM_eq_none {α β : Type} (f : β → α → Option β) (l : List α) (a : α)
    (ha : a ∈ l) (h : ∀ b : β, f b a = none) (b : β) :
    l.foldlM f b = none := by
  induction l generalizing b with
  | nil => cases ha
  | cons x xs ih =>
      rw [List.foldlM_cons]
      rcases List.mem_cons.mp ha with rfl | ha2
      · rw [h b]; rfl
      · cases hfx : f b x with
        | none => rfl
        | some b2 => exact ih ha2 b2

/-- A pure left fold that accumulates componentwise additions on a pair
equals the pair of mapped sums. -/
theorem foldl_addPair_eq_sum {α : Type} (h1 h2 : α → ℚ) (l : List α) (u : ℚ × ℚ) :
    l.foldl (fun u a => (u.1 + h1 a, u.2 + h2 a)) u
      = (u.1 + (l.map h1).sum, u.2 + (l.map h2).sum) := by
  induction l generalizing u with
  | nil => simp
  | cons x xs ih => simp [ih, add_assoc]

/-- A pure left fold accumulating additions equals the mapped sum. -/
theorem foldl_add_eq_sum {α : Type} (h : α → ℚ) (l : List α) (u : ℚ) :
    l.foldl (fun u a => u + h a) u = u + (l.map h).sum := by
  induction l generalizing u with
  | nil => simp
  | cons x xs ih => simp [ih, add_assoc]

/-- `mapM` over `Option` succeeds when every lookup succeeds, returning
the `filterMap` of the lookups. -/
theorem mapM_eq_some_filterMap {α β : Type} (f : α → Option β) (l : List α)
    (h : ∀ a ∈ l, (f a).isSome) : l.mapM f = some (l.filterMap f) := by
  induction l with
  | nil => rfl
  | cons x xs ih =>
      obtain ⟨b, hb⟩ := Option.isSome_iff_exists.mp (h x (List.mem_cons_self x xs))
      rw [List.mapM_cons, hb]
      rw [ih (fun a ha => h a (List.mem_cons_of_mem _ ha))]
      simp [List.filterMap_cons, hb]

/-- Dereferencing a group succeeds when its index and all its particle
indices are in bounds, and yields `Space.groupD`. -/
theorem group?_eq_groupD {V A : Type} (spc : Space V A) (gi : Nat)
    (hg : gi < spc.groups.length)
    (hp : ∀ pi ∈ spc.groups.getD gi [], pi < spc.p.length) :
    spc.group? gi = some (spc.groupD gi) := by
  unfold Space.group? Space.groupD
  rw [List.getElem?_eq_getElem hg]
  have hgd : spc.groups.getD gi [] = spc.groups[gi] := List.getD_eq_getElem _ _ hg
  rw [← hgd]
  refine mapM_eq_some_filterMap _ _ (fun pi hpi => ?_)
  rw [List.getElem?_eq_getElem (hp pi hpi)]
  rfl

/-- In a `≤`-sorted list, every element of `l.take (m + 1)` is at most
`l[m]`. -/
theorem mem_take_le_sorted (l : List Nat) (hs : List.Pairwise (· ≤ ·) l)
    (m : Nat) (hm : m < l.length) (a : Nat) (ha : a ∈ l.take (m + 1)) :
    a ≤ l[m] := by
  obtain ⟨k, hk, hka⟩ := List.mem_iff_getElem.mp ha
  rw [List.getElem_take] at hka
  have hk2 : k < m + 1 := by
    rw [List.length_take] at hk
    omega
  rcases Nat.lt_or_ge k m with h | h
  · have hkl : k < l.length := by omega
    have := List.pairwise_iff_getElem.mp hs k m hkl hm h
    omega
  · have : k = m := by omega
    subst this
    omega

/-- In a `≤`-sorted list, every element of `l.drop m` is at least `l[m]`. -/
theorem mem_drop_ge_sorted (l : List Nat) (hs : List.Pairwise (· ≤ ·) l)
    (m : Nat) (hm : m < l.length) (a : Nat) (ha : a ∈ l.drop m) :
    l[m] ≤ a := by
  obtain ⟨k, hk, hka⟩ := List.mem_iff_getElem.mp ha
  rw [List.getElem_drop] at hka
  rw [List.length_drop] at hk
  rcases Nat.eq_zero_or_pos k with h | h
  · subst h
    simp at hka
    omega
  · have := List.pairwise_iff_getElem.mp hs m (m + k) hm (by omega) (by omega)
    omega

/-- `std::binary_search` on a `≤`-sorted list decides membership. -/
theorem binarySearch_iff_mem : ∀ (nn : Nat) (l : List Nat), l.length = nn →
    List.Pairwise (· ≤ ·) l → ∀ x : Nat, (binarySearch l x = true ↔ x ∈ l) := by
  intro nn
  induction nn using Nat.strong_induction_on with
  | _ nn ih =>
    intro l hlen hs x
    rw [binarySearch]
    by_cases hnil : l = []
    · simp [hnil]
    · rw [dif_neg hnil]
      have hpos : 0 < l.length := List.length_pos.mpr hnil
      have hm : l.length / 2 < l.length := Nat.div_lt_self hpos (by omega)
      have hv : l.getD (l.length / 2) 0 = l[l.length / 2] := by
        rw [List.getD_eq_getElem?_getD, List.getElem?_eq_getElem hm]
        rfl
      by_cases h1 : l.getD (l.length / 2) 0 < x
      · rw [if_pos h1]
        have hd : (l.drop (l.length / 2 + 1)).length < nn := by
          rw [List.length_drop]
          omega
        have hds : List.Pairwise (· ≤ ·) (l.drop (l.length / 2 + 1)) :=
          List.Pairwise.sublist (List.drop_sublist _ _) hs
        rw [ih _ (by omega) _ rfl hds x]
        constructor
        · exact fun h => List.mem_of_mem_drop h
        · intro hmem
          rw [← List.take_append_drop (l.length / 2 + 1) l] at hmem
          rcases List.mem_append.mp hmem with htk | hdr
          · exfalso
            have := mem_take_le_sorted l hs _ hm x htk
            rw [hv] at h1
            omega
          · exact hdr
      · rw [if_neg h1]
        by_cases h2 : x < l.getD (l.length / 2) 0
        · rw [if_pos h2]
          have ht : (l.take (l.length / 2)).length < nn := by
            rw [List.length_take]
            omega
          have hts : List.Pairwise (· ≤ ·) (l.take (l.length / 2)) :=
            List.Pairwise.sublist (List.take_sublist _ _) hs
          rw [ih _ (by omega) _ rfl hts x]
          constructor
          · exact fun h => List.mem_of_mem_take h
          · intro hmem
            rw [← List.take_append_drop (l.length / 2) l] at hmem
            rcases List.mem_append.mp hmem with htk | hdr
            · exact htk
            · exfalso
              have := mem_drop_ge_sorted l hs _ hm x hdr
              rw [hv] at h2
              omega
        · rw [if_neg h2]
          have hx : x = l[l.length / 2] := by
            rw [hv] at h1 h2
            omega
          simp only [true_iff]
          rw [hx]
          exact List.getElem_mem hm

/-- On a sorted touched-index list, the binary-search filter of energy.h
computes exactly the complement of the touched set. -/
theorem staticIndex_eq_fixedList (n : Nat) (moved : List Nat)
    (hs : List.Pairwise (· ≤ ·) moved) :
    staticIndex n moved = fixedList n moved := by
  unfold staticIndex fixedList
  apply List.filter_congr
  intro i _
  have hiff := binarySearch_iff_mem moved.length moved rfl hs i
  cases hb : binarySearch moved i with
  | false =>
      have : i ∉ moved := fun hmem => by
        rw [hiff.mpr hmem] at hb
        cases hb
      simp [this]
  | true =>
      have : i ∈ moved := hiff.mp hb
      simp [this]

/-- `g2g` as the sum over the full cross product of the two particle
lists. -/
theorem g2g_eq_sum (nb : Nonbonded V A) (spc : Space V A)
    (g1 g2 : List (Particle V A)) :
    nb.g2g spc g1 g2
      = (g1.map (fun i => (g2.map (fun j => nb.i2i spc i j)).sum)).sum := by
  unfold Nonbonded.g2g
  have hrow : ∀ u : ℚ, ∀ a ∈ g1,
      g2.foldl (fun u j => u + nb.i2i spc a j) u
        = u + (g2.map (fun j => nb.i2i spc a j)).sum :=
    fun u a _ => foldl_add_eq_sum _ _ _
  rw [List.foldl_ext _ _ 0 hrow, foldl_add_eq_sum, zero_add]

/-- With the constant-1 instrumentation potential, `g2g` counts the pair
evaluations: `|g1| * |g2|`. -/
theorem g2g_const_one (spc : Space V A) (g1 g2 : List (Particle V A)) :
    Nonbonded.g2g ⟨fun _ _ _ => 1⟩ spc g1 g2 = (g1.length : ℚ) * g2.length := by
  rw [g2g_eq_sum]
  simp [Nonbonded.i2i, List.map_const', List.sum_replicate, nsmul_eq_mul]

/-- Central collapse: whenever every touched-group index is in range for
both stores, every particle index held by any group is in range of the
respective particle store, and the two stores have the same number of
groups, `Nonbonded::energy` succeeds and returns the touched-by-static
nested sums for the old and the new store. -/
theorem energy?_eq_of_bounds (nb : Nonbonded V A) (o n : Space V A) (c : Change)
    (hdo : ∀ d ∈ c.groups, d.index < o.groups.length)
    (hdn : ∀ d ∈ c.groups, d.index < n.groups.length)
    (hpo : ∀ g ∈ o.groups, ∀ pi ∈ g, pi < o.p.length)
    (hpn : ∀ g ∈ n.groups, ∀ pi ∈ g, pi < n.p.length)
    (hlen : n.groups.length = o.groups.length) :
    nb.energy? o n c
      = some (movedStaticSum nb o c.groups
                (staticIndex o.groups.length c.touchedGroupIndex),
              movedStaticSum nb n c.groups
                (staticIndex o.groups.length c.touchedGroupIndex)) := by
  unfold Nonbonded.energy?
  by_cases he : c.empty = true
  · rw [if_pos he]
    have hnil : c.groups = [] := by
      unfold Change.empty at he
      exact List.isEmpty_iff.mp he
    rw [hnil]
    simp [movedStaticSum]
  · rw [if_neg he]
    have hgroup : ∀ (spc : Space V A) (gi : Nat), gi < spc.groups.length →
        (∀ g ∈ spc.groups, ∀ pi ∈ g, pi < spc.p.length) →
        spc.group? gi = some (spc.groupD gi) := by
      intro spc gi hgi hp
      apply group?_eq_groupD spc gi hgi
      have hmem : spc.groups.getD gi [] = spc.groups[gi] := by
        rw [List.getD_eq_getElem?_getD, List.getElem?_eq_getElem hgi,
          Option.getD_some]
      intro pi hpi
      rw [hmem] at hpi
      exact hp _ (List.getElem_mem hgi) pi hpi
    have hstep : ∀ d ∈ c.groups, ∀ (u : ℚ × ℚ),
        ∀ i ∈ staticIndex o.groups.length c.touchedGroupIndex,
        energyStep nb o n d u i
          = some (u.1 + nb.g2g o (o.groupD d.index) (o.groupD i),
                  u.2 + nb.g2g n (n.groupD d.index) (n.groupD i)) := by
      intro d hd u i hi
      have hio : i < o.groups.length :=
        List.mem_range.mp (List.mem_filter.mp hi).1
      have hin : i < n.groups.length := by
        rw [hlen]
        exact hio
      unfold energyStep
      rw [hgroup o d.index (hdo d hd) hpo, hgroup o i hio hpo,
          hgroup n d.index (hdn d hd) hpn, hgroup n i hin hpn]
      rfl
    set fixd := staticIndex o.groups.length c.touchedGroupIndex with hfixd
    have houter : ∀ (u : ℚ × ℚ), ∀ d ∈ c.groups,
        fixd.foldlM (energyStep nb o n d) u
          = some (u.1 + (fixd.map
                    (fun i => nb.g2g o (o.groupD d.index) (o.groupD i))).sum,
                  u.2 + (fixd.map
                    (fun i => nb.g2g n (n.groupD d.index) (n.groupD i))).sum) := by
      intro u d hd
      rw [foldlM_eq_foldl _
            (fun u i => (u.1 + nb.g2g o (o.groupD d.index) (o.groupD i),
                         u.2 + nb.g2g n (n.groupD d.index) (n.groupD i)))
            fixd (fun u i hi => hstep d hd u i hi) u]
      rw [foldl_addPair_eq_sum]
    rw [foldlM_eq_foldl _
          (fun u d =>
            (u.1 + (fixd.map
              (fun i => nb.g2g o (o.groupD d.index) (o.groupD i))).sum,
             u.2 + (fixd.map
              (fun i => nb.g2g n (n.groupD d.index) (n.groupD i))).sum))
          c.groups (fun u d hd => houter u d hd) (0, 0)]
    rw [foldl_addPair_eq_sum]
    simp [movedStaticSum]

/-- One row of `Nonbonded::index2index`: when the row's particle lookup
and all column lookups succeed, the inner monadic fold collapses to the
pure fold over the dereferenced particles. -/
theorem index2index?_row (nb : Nonbonded V A) (spc : Space V A)
    (a : Particle V A) (i : Nat) (hi : spc.p[i]? = some a) :
    ∀ (i2 : List Nat) (pb : List (Particle V A)),
      i2.mapM (fun j => spc.p[j]?) = some pb → ∀ u : ℚ,
      i2.foldlM (fun u j =>
          (spc.p[i]?).bind fun a =>
          (spc.p[j]?).bind fun b => some (u + nb.i2i spc a b)) u
        = some (pb.foldl (fun u b => u + nb.i2i spc a b) u) := by
  intro i2
  induction i2 with
  | nil =>
      intro pb hpb u
      cases hpb
      rfl
  | cons j rest ih =>
      intro pb hpb u
      rw [List.mapM_cons] at hpb
      cases hj : spc.p[j]? with
      | none => rw [hj] at hpb; simp at hpb
      | some b =>
          rw [hj] at hpb
          cases hrest : rest.mapM (fun j => spc.p[j]?) with
          | none => rw [hrest] at hpb; simp at hpb
          | some pb2 =>
              rw [hrest] at hpb
              simp at hpb
              subst hpb
              rw [hi] at ih
              rw [List.foldlM_cons, hi, hj]
              exact ih pb2 hrest (u + nb.i2i spc a b)

/-- `Nonbonded::index2index` collapses to `Nonbonded::g2g` applied to the
dereferenced particle lists whenever every particle lookup succeeds. -/
theorem index2index?_eq_g2g (nb : Nonbonded V A) (spc : Space V A) :
    ∀ (i1 : List Nat) (i2 : List Nat) (pa pb : List (Particle V A)),
      i1.mapM (fun i => spc.p[i]?) = some pa →
      i2.mapM (fun j => spc.p[j]?) = some pb →
      nb.index2index? spc i1 i2 = some (nb.g2g spc pa pb) := by
  have main : ∀ (i2 : List Nat) (pb : List (Particle V A)),
      i2.mapM (fun j => spc.p[j]?) = some pb →
      ∀ (i1 : List Nat) (pa : List (Particle V A)),
      i1.mapM (fun i => spc.p[i]?) = some pa → ∀ u : ℚ,
      i1.foldlM (fun u i =>
          i2.foldlM (fun u j =>
            (spc.p[i]?).bind fun a =>
            (spc.p[j]?).bind fun b => some (u + nb.i2i spc a b)) u) u
        = some (pa.foldl (fun u a =>
            pb.foldl (fun u b => u + nb.i2i spc a b) u) u) := by
    intro i2 pb hpb i1
    induction i1 with
    | nil =>
        intro pa hpa u
        cases hpa
        rfl
    | cons i rest ih =>
        intro pa hpa u
        rw [List.mapM_cons] at hpa
        cases hi : spc.p[i]? with
        | none => rw [hi] at hpa; simp at hpa
        | some a =>
            rw [hi] at hpa
            cases hrest : rest.mapM (fun i => spc.p[i]?) with
            | none => rw [hrest] at hpa; simp at hpa
            | some pa2 =>
                rw [hrest] at hpa
                simp at hpa
                subst hpa
                rw [List.foldlM_cons,
                  index2index?_row nb spc a i hi i2 pb hpb u]
                exact ih pa2 hrest _
  intro i1 i2 pa pb h1 h2
  unfold Nonbonded.index2index? Nonbonded.g2g
  exact main i2 pb h2 i1 pa h1 0

/-- A `filterMap` whose function succeeds on every element preserves the
length. -/
theorem length_filterMap_of_isSome {α β : Type} (f : α → Option β) (l : List α)
    (h : ∀ a ∈ l, (f a).isSome) : (l.filterMap f).length = l.length := by
  induction l with
  | nil => rfl
  | cons x xs ih =>
      obtain ⟨b, hb⟩ := Option.isSome_iff_exists.mp (h x (List.mem_cons_self x xs))
      rw [List.filterMap_cons, hb]
      simp [ih (fun a ha => h a (List.mem_cons_of_mem _ ha))]

/-- Under the particle-index bounds, the dereferenced group has exactly
the group's size. -/
theorem groupD_length (spc : Space V A) (gi : Nat)
    (hp : ∀ pi ∈ spc.groups.getD gi [], pi < spc.p.length) :
    (spc.groupD gi).length = (spc.groups.getD gi []).length := by
  unfold Space.groupD
  apply length_filterMap_of_isSome
  intro pi hpi
  rw [List.getElem?_eq_getElem (hp pi hpi)]
  rfl

/-- Transfer the per-group particle bounds to a group fetched with a
default. -/
theorem groups_getD_bounds (spc : Space V A) (gi : Nat)
    (hgi : gi < spc.groups.length)
    (hp : ∀ g ∈ spc.groups, ∀ pi ∈ g, pi < spc.p.length) :
    ∀ pi ∈ spc.groups.getD gi [], pi < spc.p.length := by
  have hmem : spc.groups.getD gi [] = spc.groups[gi] := by
    rw [List.getD_eq_getElem?_getD, List.getElem?_eq_getElem hgi, Option.getD_some]
  rw [hmem]
  exact hp _ (List.getElem_mem hgi)

/-- Membership in the fixed list means: in the index universe and not
touched. -/
theorem mem_fixedList_lt (n : Nat) (moved : List Nat) (i : Nat)
    (hi : i ∈ fixedList n moved) : i < n ∧ i ∉ moved := by
  unfold fixedList at hi
  have h := List.mem_filter.mp hi
  exact ⟨List.mem_range.mp h.1, by simpa using h.2⟩

/-- The master evaluation theorem: on valid input `Nonbonded::energy`
returns the touched-by-fixed sums, with the fixed set written as the
plain complement of the touched set. -/
theorem energy?_eq_of_valid (nb : Nonbonded V A) (o n : Space V A) (c : Change)
    (h : ValidInput o n c) :
    nb.energy? o n c
      = some (movedStaticSum nb o c.groups
                (fixedList o.groups.length c.touchedGroupIndex),
              movedStaticSum nb n c.groups
                (fixedList o.groups.length c.touchedGroupIndex)) := by
  obtain ⟨hs, hdo, hdn, hpo, hpn, hlen⟩ := h
  rw [energy?_eq_of_bounds nb o n c hdo hdn hpo hpn hlen,
    staticIndex_eq_fixedList _ _ (hs.imp le_of_lt)]

/-- With the constant-1 potential, the fixed-sweep sum for one touched
group counts `|g| * Σ |f|`. -/
theorem countSum_eq (spc : Space V A) (gd : Nat) (fixd : List Nat)
    (hpd : ∀ pi ∈ spc.groups.getD gd [], pi < spc.p.length)
    (hpf : ∀ i ∈ fixd, ∀ pi ∈ spc.groups.getD i [], pi < spc.p.length) :
    (fixd.map (fun i =>
        Nonbonded.g2g ⟨fun _ _ _ => 1⟩ spc (spc.groupD gd) (spc.groupD i))).sum
      = ((spc.groups.getD gd []).length : ℚ) *
          (fixd.map (fun i => ((spc.groups.getD i []).length : ℚ))).sum := by
  rw [← List.sum_map_mul_left]
  apply congrArg List.sum
  apply List.map_congr_left
  intro i hi
  rw [g2g_const_one, groupD_length spc gd hpd, groupD_length spc i (hpf i hi)]

/-! ### Claim theorems -/

/-- C2: for every pair of stores and every change set touching zero
groups, `evaluateChange` returns exactly `(0, 0)` without signalling an
error, for an arbitrary pair potential — in particular for the constant-1
call-counting potential, so zero pair evaluations are performed; the
statement covers the empty system with zero groups. -/
theorem evaluateChange_empty_change (V A : Type) (nb : Nonbonded V A)
    (o n : Space V A) (c : Change) (h : c.groups = []) :
    nb.energy? o n c = some (0, 0) := by
  have he : c.empty = true := by
    unfold Change.empty
    rw [h]
    rfl
  unfold Nonbonded.energy?
  rw [if_pos he]

/-- Witness for C2: the empty system with zero groups and the empty
change set, under the call-counting potential. -/
theorem evaluateChange_empty_change_witness :
    (⟨[]⟩ : Change).groups = [] ∧
      Nonbonded.energy? onePotU emptySpaceU emptySpaceU ⟨[]⟩ = some (0, 0) :=
  ⟨rfl, evaluateChange_empty_change Unit Unit onePotU emptySpaceU emptySpaceU ⟨[]⟩ rfl⟩

/-- C3: `g2g` sums `i2i` over the full cross product of the two groups
(`|A|·|B|` terms), and each `i2i` is the pair potential applied to the
two particles and the geometry's distance function on their positions. -/
theorem groupPairEnergy_cross_product :
    (∀ (V A : Type) (nb : Nonbonded V A) (spc : Space V A)
        (g1 g2 : List (Particle V A)),
      nb.g2g spc g1 g2 = ((g1 ×ˢ g2).map (fun ij => nb.i2i spc ij.1 ij.2)).sum ∧
      (g1 ×ˢ g2).length = g1.length * g2.length) ∧
    (∀ (V A : Type) (nb : Nonbonded V A) (spc : Space V A)
        (a b : Particle V A),
      nb.i2i spc a b = nb.pairpot a b (spc.vdist a.pos b.pos)) := by
  constructor
  · intro V A nb spc g1 g2
    constructor
    · rw [g2g_eq_sum]
      induction g1 with
      | nil => simp
      | cons a l ih =>
          simp [List.product_cons, ih, Function.comp_def]
    · exact List.length_product g1 g2
  · intro V A nb spc a b
    rfl

/-- C7: the call writes nothing to either store or to the change set (the
state-passing translation returns the arguments unchanged), and a second
call on the state returned by the first yields the identical result. -/
theorem evaluateChange_pure (V A : Type) (nb : Nonbonded V A)
    (o n : Space V A) (c : Change) :
    (nb.energyCall o n c).1 = (o, n, c) ∧
    nb.energyCall (nb.energyCall o n c).1.1 (nb.energyCall o n c).1.2.1
        (nb.energyCall o n c).1.2.2
      = nb.energyCall o n c :=
  ⟨rfl, rfl⟩

/-- C9: `applyDelta` performs `running += deltaNew - deltaOld`; seeding
with 10 and applying deltas (2, 3) then (-1, 0.5) leaves running = 12.5. -/
theorem driftTracker_applyDelta_spec :
    (∀ (t : DriftTracker) (dOld dNew : ℚ),
      (t.applyDelta dOld dNew).running = t.running + (dNew - dOld)) ∧
    (((DriftTracker.mk 10).applyDelta 2 3).applyDelta (-1) (1/2)).running
      = 25/2 := by
  refine ⟨fun t dOld dNew => rfl, ?_⟩
  norm_num [DriftTracker.applyDelta]


/-- C1: for every non-empty valid change set, `evaluateChange` returns
the pair of sums, over every touched group `d` and every fixed group `f`
(complement of the touched set, whose binary-search membership test is
faithful on the sorted-unique invariant), of `groupPairEnergy` in the old
and in the new store; and with the constant-1 call-counting potential a
single touched group `g` gives exactly `|g| * Σ |f|` evaluations per
store. -/
theorem evaluateChange_moved_static_sums :
    (∀ (V A : Type) (nb : Nonbonded V A) (o n : Space V A) (c : Change),
      c.groups ≠ [] → ValidInput o n c →
      nb.energy? o n c
        = some (movedStaticSum nb o c.groups
                  (fixedList o.groups.length c.touchedGroupIndex),
                movedStaticSum nb n c.groups
                  (fixedList o.groups.length c.touchedGroupIndex))) ∧
    (∀ (V A : Type) (o n : Space V A) (d : GroupChange),
      ValidInput o n ⟨[d]⟩ →
      Nonbonded.energy? ⟨fun _ _ _ => 1⟩ o n ⟨[d]⟩
        = some (((o.groups.getD d.index []).length : ℚ) *
                  ((fixedList o.groups.length [d.index]).map
                    (fun f => ((o.groups.getD f []).length : ℚ))).sum,
                ((n.groups.getD d.index []).length : ℚ) *
                  ((fixedList o.groups.length [d.index]).map
                    (fun f => ((n.groups.getD f []).length : ℚ))).sum)) := by
  constructor
  · intro V A nb o n c _ hv
    exact energy?_eq_of_valid nb o n c hv
  · intro V A o n d hv
    rw [energy?_eq_of_valid _ o n _ hv]
    obtain ⟨hs, hdo, hdn, hpo, hpn, hlen⟩ := hv
    have hd1 : d ∈ ({ groups := [d] } : Change).groups := List.mem_cons_self d []
    have hdo0 : d.index < o.groups.length := hdo d hd1
    have hdn0 : d.index < n.groups.length := hdn d hd1
    have htch : Change.touchedGroupIndex ⟨[d]⟩ = [d.index] := rfl
    unfold movedStaticSum
    rw [htch]
    simp only [List.map_cons, List.map_nil, List.sum_cons, List.sum_nil, add_zero]
    have hfo : ∀ i ∈ fixedList o.groups.length [d.index],
        ∀ pi ∈ o.groups.getD i [], pi < o.p.length := by
      intro i hi
      exact groups_getD_bounds o i (mem_fixedList_lt _ _ i hi).1 hpo
    have hfn : ∀ i ∈ fixedList o.groups.length [d.index],
        ∀ pi ∈ n.groups.getD i [], pi < n.p.length := by
      intro i hi
      have : i < n.groups.length := by
        rw [hlen]
        exact (mem_fixedList_lt _ _ i hi).1
      exact groups_getD_bounds n i this hpn
    rw [countSum_eq o d.index _ (groups_getD_bounds o d.index hdo0 hpo) hfo,
        countSum_eq n d.index _ (groups_getD_bounds n d.index hdn0 hpn) hfn]

/-- Witness for C1: the spec scenario (1/r potential, static group
{0, 1}, touched group {2}) gives (3/4, 8/15); the call-counting
potential on two singleton groups counts one evaluation per store. -/
theorem evaluateChange_moved_static_sums_witness :
    ((⟨[⟨1, []⟩]⟩ : Change).groups ≠ [] ∧
      ValidInput scenarioOld scenarioNew ⟨[⟨1, []⟩]⟩ ∧
      Nonbonded.energy? invPot scenarioOld scenarioNew ⟨[⟨1, []⟩]⟩
        = some (3/4, 8/15)) ∧
    (ValidInput twoGroupSpaceU twoGroupSpaceU ⟨[⟨0, []⟩]⟩ ∧
      Nonbonded.energy? ⟨fun _ _ _ => 1⟩ twoGroupSpaceU twoGroupSpaceU
          ⟨[⟨0, []⟩]⟩ = some (1, 1)) :=
  ⟨⟨by decide, by decide,
    (evaluateChange_moved_static_sums.1 ℚ Unit invPot scenarioOld scenarioNew
      ⟨[⟨1, []⟩]⟩ (by decide) (by decide)).trans (by
        norm_num [movedStaticSum, Space.groupD, fixedList, Nonbonded.g2g,
          Nonbonded.i2i, scenarioOld, scenarioNew, invPot,
          Change.touchedGroupIndex, List.range_succ, List.filter_cons,
          List.filterMap_cons, List.foldl_cons, List.getElem?_cons_zero,
          List.getElem?_cons_succ, Option.getD_some])⟩,
   ⟨by decide,
    (evaluateChange_moved_static_sums.2 Unit Unit twoGroupSpaceU twoGroupSpaceU
      ⟨0, []⟩ (by decide)).trans (by
        norm_num [twoGroupSpaceU, fixedList, List.range_succ, List.filter_cons,
          List.getElem?_cons_zero, List.getElem?_cons_succ,
          Option.getD_some])⟩⟩


/-- Two `g2g` evaluations agree when the potentials agree on every
particle pair of the two groups at the geometry's separation. -/
theorem g2g_congr (pp1 pp2 : Particle V A → Particle V A → V → ℚ)
    (spc : Space V A) (g1 g2 : List (Particle V A))
    (h : ∀ a ∈ g1, ∀ b ∈ g2,
      pp1 a b (spc.vdist a.pos b.pos) = pp2 a b (spc.vdist a.pos b.pos)) :
    Nonbonded.g2g ⟨pp1⟩ spc g1 g2 = Nonbonded.g2g ⟨pp2⟩ spc g1 g2 := by
  rw [g2g_eq_sum, g2g_eq_sum]
  apply congrArg List.sum
  apply List.map_congr_left
  intro a ha
  apply congrArg List.sum
  apply List.map_congr_left
  intro b hb
  exact h a ha b hb

/-- The touched-by-fixed sums agree when the potentials agree on every
touched-particle/fixed-particle pair. -/
theorem movedStaticSum_congr (pp1 pp2 : Particle V A → Particle V A → V → ℚ)
    (spc : Space V A) (ds : List GroupChange) (fixd : List Nat)
    (h : ∀ d ∈ ds, ∀ f ∈ fixd, ∀ a ∈ spc.groupD d.index, ∀ b ∈ spc.groupD f,
      pp1 a b (spc.vdist a.pos b.pos) = pp2 a b (spc.vdist a.pos b.pos)) :
    movedStaticSum ⟨pp1⟩ spc ds fixd = movedStaticSum ⟨pp2⟩ spc ds fixd := by
  unfold movedStaticSum
  apply congrArg List.sum
  apply List.map_congr_left
  intro d hd
  apply congrArg List.sum
  apply List.map_congr_left
  intro f hf
  exact g2g_congr _ _ _ _ _ (h d hd f hf)

/-- C4: for a valid change set touching two or more groups, the returned
energies consist exactly of the touched-with-fixed group-pair sums; in
particular no moved-with-moved particle pair is evaluated: modifying the
potential arbitrarily outside the touched-with-fixed pairs leaves the
result unchanged. -/
theorem evaluateChange_no_moved_moved :
    ∀ (V A : Type) (o n : Space V A) (c : Change)
      (pp1 pp2 : Particle V A → Particle V A → V → ℚ),
      2 ≤ c.groups.length → ValidInput o n c →
      (∀ d ∈ c.groups, ∀ f ∈ fixedList o.groups.length c.touchedGroupIndex,
        ∀ a ∈ o.groupD d.index, ∀ b ∈ o.groupD f,
          pp1 a b (o.vdist a.pos b.pos) = pp2 a b (o.vdist a.pos b.pos)) →
      (∀ d ∈ c.groups, ∀ f ∈ fixedList o.groups.length c.touchedGroupIndex,
        ∀ a ∈ n.groupD d.index, ∀ b ∈ n.groupD f,
          pp1 a b (n.vdist a.pos b.pos) = pp2 a b (n.vdist a.pos b.pos)) →
      Nonbonded.energy? ⟨pp1⟩ o n c = Nonbonded.energy? ⟨pp2⟩ o n c ∧
      Nonbonded.energy? ⟨pp1⟩ o n c
        = some (movedStaticSum ⟨pp1⟩ o c.groups
                  (fixedList o.groups.length c.touchedGroupIndex),
                movedStaticSum ⟨pp1⟩ n c.groups
                  (fixedList o.groups.length c.touchedGroupIndex)) := by
  intro V A o n c pp1 pp2 h2 hv ho hn
  refine ⟨?_, energy?_eq_of_valid _ o n c hv⟩
  rw [energy?_eq_of_valid _ o n c hv, energy?_eq_of_valid _ o n c hv,
    movedStaticSum_congr pp1 pp2 o _ _ ho, movedStaticSum_congr pp1 pp2 n _ _ hn]

/-- Witness for C4: two touched singleton groups (ids 0, 1) and one fixed
group (id 2); the potential inflating moved-moved pairs to 100 gives the
same energies as the constant-1 potential. -/
theorem evaluateChange_no_moved_moved_witness :
    2 ≤ (⟨[⟨0, []⟩, ⟨1, []⟩]⟩ : Change).groups.length ∧
    ValidInput threeGroupSpace threeGroupSpace ⟨[⟨0, []⟩, ⟨1, []⟩]⟩ ∧
    Nonbonded.energy? ⟨fun _ _ _ => 1⟩ threeGroupSpace threeGroupSpace
        ⟨[⟨0, []⟩, ⟨1, []⟩]⟩
      = Nonbonded.energy? ⟨skewPot⟩ threeGroupSpace threeGroupSpace
          ⟨[⟨0, []⟩, ⟨1, []⟩]⟩ :=
  ⟨by decide, by decide,
    (evaluateChange_no_moved_moved Unit Nat threeGroupSpace threeGroupSpace
      ⟨[⟨0, []⟩, ⟨1, []⟩]⟩ (fun _ _ _ => 1) skewPot (by decide) (by decide)
      (by decide) (by decide)).1⟩

/-- Counterexample for C5: `g2g` applied with the same singleton group as
both arguments does evaluate the intra-group (self) pair — the constant-1
potential yields 1, not 0. -/
theorem groupPair_self_counterexample :
    Nonbonded.g2g onePotU twoGroupSpaceU [unitParticle] [unitParticle] = 1 ∧
    (1 : ℚ) ≠ 0 := by
  constructor
  · norm_num [Nonbonded.g2g, Nonbonded.i2i, onePotU]
  · norm_num

/-- C5 amended: `g2g` itself evaluates the full cross product, including
intra-group pairs, when handed the same group twice; but on valid input
the evaluator never does that: every `g2g` application inside
`Nonbonded::energy` pairs a touched group index with a fixed index, and
these are always distinct. -/
theorem evaluator_no_self_group_pair :
    ∀ (V A : Type) (nb : Nonbonded V A) (o n : Space V A) (c : Change),
      ValidInput o n c →
      nb.energy? o n c
        = some (movedStaticSum nb o c.groups
                  (fixedList o.groups.length c.touchedGroupIndex),
                movedStaticSum nb n c.groups
                  (fixedList o.groups.length c.touchedGroupIndex)) ∧
      (∀ d ∈ c.groups, ∀ f ∈ fixedList o.groups.length c.touchedGroupIndex,
        d.index ≠ f) := by
  intro V A nb o n c hv
  refine ⟨energy?_eq_of_valid nb o n c hv, ?_⟩
  intro d hd f hf he
  apply (mem_fixedList_lt _ _ f hf).2
  rw [← he]
  exact List.mem_map_of_mem (fun d => d.index) hd

/-- Witness for C5's amended statement at a concrete valid input. -/
theorem evaluator_no_self_group_pair_witness :
    ValidInput twoGroupSpaceU twoGroupSpaceU ⟨[⟨0, []⟩]⟩ ∧
    (∀ d ∈ (⟨[⟨0, []⟩]⟩ : Change).groups,
      ∀ f ∈ fixedList twoGroupSpaceU.groups.length
          (Change.touchedGroupIndex ⟨[⟨0, []⟩]⟩), d.index ≠ f) :=
  ⟨by decide,
    (evaluator_no_self_group_pair Unit Unit onePotU twoGroupSpaceU
      twoGroupSpaceU ⟨[⟨0, []⟩]⟩ (by decide)).2⟩


/-- Counterexample for C6: a change set whose touched-index list [1, 0]
is not sorted (and so violates the invariant) is not rejected:
`evaluateChange` performs the sweep and returns an energy pair instead of
surfacing a precondition violation. -/
theorem invalidChange_not_rejected_counterexample :
    ¬ List.Pairwise (· < ·)
        (Change.touchedGroupIndex ⟨[⟨1, []⟩, ⟨0, []⟩]⟩) ∧
    (Nonbonded.energy? onePotU twoGroupSpaceU twoGroupSpaceU
        ⟨[⟨1, []⟩, ⟨0, []⟩]⟩).isSome = true := by
  constructor
  · decide
  · simp [Nonbonded.energy?, Change.empty, Change.touchedGroupIndex,
      staticIndex, binarySearch, energyStep, Space.group?, twoGroupSpaceU,
      onePotU, unitParticle, List.range_succ, List.mapM.loop]

/-- C6 amended: energy.h performs no up-front validation of the change
set.  A change set with unsorted (or duplicate) touched indices is not
rejected: evaluation proceeds, with the binary-search membership test
applied to the unsorted list, and returns an energy pair.  An
out-of-range touched-group index is not detected up front either; it
surfaces as an out-of-bounds container access (`none` in this total
embedding) as soon as the inner loop dereferences it — that is, whenever
at least one static index exists. -/
theorem invalidChange_behavior :
    (∀ (V A : Type) (nb : Nonbonded V A) (o n : Space V A) (c : Change)
        (d : GroupChange),
      d ∈ c.groups → o.groups.length ≤ d.index →
      staticIndex o.groups.length c.touchedGroupIndex ≠ [] →
      nb.energy? o n c = none) ∧
    (Nonbonded.energy? onePotU twoGroupSpaceU twoGroupSpaceU
        ⟨[⟨0, []⟩, ⟨0, []⟩]⟩).isSome = true := by
  constructor
  · intro V A nb o n c d hd hix hne
    have hnotempty : ¬ c.empty = true := by
      unfold Change.empty
      cases hc : c.groups with
      | nil => rw [hc] at hd; cases hd
      | cons x xs => simp
    unfold Nonbonded.energy?
    rw [if_neg hnotempty]
    apply foldlM_eq_none _ c.groups d hd
    intro u
    obtain ⟨i, rest, hcons⟩ : ∃ i rest,
        staticIndex o.groups.length c.touchedGroupIndex = i :: rest := by
      cases hfx : staticIndex o.groups.length c.touchedGroupIndex with
      | nil => exact absurd hfx hne
      | cons i rest => exact ⟨i, rest, rfl⟩
    rw [hcons, List.foldlM_cons]
    have hstep : energyStep nb o n d u i = none := by
      unfold energyStep
      have hg : o.group? d.index = none := by
        unfold Space.group?
        rw [List.getElem?_eq_none hix]
      rw [hg]
      rfl
    rw [hstep]
    rfl
  · simp [Nonbonded.energy?, Change.empty, Change.touchedGroupIndex,
      staticIndex, binarySearch, energyStep, Space.group?, twoGroupSpaceU,
      onePotU, unitParticle, List.range_succ, List.mapM.loop]

/-- Witness for C6's amended statement: touched index 5 in a two-group
system is dereferenced during the sweep and evaluation fails with
`none`. -/
theorem invalidChange_behavior_witness :
    ((⟨5, []⟩ : GroupChange) ∈ (⟨[⟨5, []⟩]⟩ : Change).groups ∧
      twoGroupSpaceU.groups.length ≤ (5 : Nat) ∧
      staticIndex twoGroupSpaceU.groups.length
        (Change.touchedGroupIndex ⟨[⟨5, []⟩]⟩) ≠ []) ∧
    Nonbonded.energy? onePotU twoGroupSpaceU twoGroupSpaceU ⟨[⟨5, []⟩]⟩
      = none :=
  ⟨⟨by decide, by decide, by
      simp [staticIndex, binarySearch, Change.touchedGroupIndex,
        twoGroupSpaceU, List.range_succ]⟩,
    invalidChange_behavior.1 Unit Unit onePotU twoGroupSpaceU twoGroupSpaceU
      ⟨[⟨5, []⟩]⟩ ⟨5, []⟩ (by decide) (by decide) (by
        simp [staticIndex, binarySearch, Change.touchedGroupIndex,
          twoGroupSpaceU, List.range_succ])⟩

/-- C8: applying `index2index` to the explicit index lists of two groups
yields the same energy as `g2g` applied to the two dereferenced groups:
the index-list formulation computes the identical cross-product sum. -/
theorem indexPair_agrees_groupPair :
    ∀ (V A : Type) (nb : Nonbonded V A) (spc : Space V A) (a b : Nat),
      a < spc.groups.length → b < spc.groups.length →
      (∀ g ∈ spc.groups, ∀ pi ∈ g, pi < spc.p.length) →
      nb.index2index? spc (spc.groups.getD a []) (spc.groups.getD b [])
        = some (nb.g2g spc (spc.groupD a) (spc.groupD b)) := by
  intro V A nb spc a b ha hb hp
  have m1 := mapM_eq_some_filterMap (fun i => spc.p[i]?) (spc.groups.getD a [])
    (fun i hi => by
      show (spc.p[i]?).isSome = true
      rw [List.getElem?_eq_getElem (groups_getD_bounds spc a ha hp i hi)]
      rfl)
  have m2 := mapM_eq_some_filterMap (fun j => spc.p[j]?) (spc.groups.getD b [])
    (fun j hj => by
      show (spc.p[j]?).isSome = true
      rw [List.getElem?_eq_getElem (groups_getD_bounds spc b hb hp j hj)]
      rfl)
  exact index2index?_eq_g2g nb spc _ _ _ _ m1 m2

/-- Witness for C8 on the two singleton groups of `twoGroupSpaceU`. -/
theorem indexPair_agrees_groupPair_witness :
    ((0 : Nat) < twoGroupSpaceU.groups.length ∧
      (1 : Nat) < twoGroupSpaceU.groups.length ∧
      (∀ g ∈ twoGroupSpaceU.groups, ∀ pi ∈ g,
        pi < twoGroupSpaceU.p.length)) ∧
    Nonbonded.index2index? onePotU twoGroupSpaceU
        (twoGroupSpaceU.groups.getD 0 []) (twoGroupSpaceU.groups.getD 1 [])
      = some (Nonbonded.g2g onePotU twoGroupSpaceU
          (twoGroupSpaceU.groupD 0) (twoGroupSpaceU.groupD 1)) :=
  ⟨⟨by decide, by decide, by decide⟩,
    indexPair_agrees_groupPair Unit Unit onePotU twoGroupSpaceU 0 1
      (by decide) (by decide) (by decide)⟩

/-- Counterexample for C10: all the claim's preconditions hold (touched
index 0 is in range of both stores, every group-held particle index is in
range), yet the new store has fewer groups than the old one, so the
static sweep accesses `newStore.groups[1]` out of bounds and evaluation
returns `none`. -/
theorem eval_bounds_counterexample :
    (∀ d ∈ (⟨[⟨0, []⟩]⟩ : Change).groups,
      d.index < twoGroupSpaceU.groups.length ∧
        d.index < oneGroupSpaceU.groups.length) ∧
    (∀ g ∈ twoGroupSpaceU.groups, ∀ pi ∈ g, pi < twoGroupSpaceU.p.length) ∧
    (∀ g ∈ oneGroupSpaceU.groups, ∀ pi ∈ g, pi < oneGroupSpaceU.p.length) ∧
    Nonbonded.energy? onePotU twoGroupSpaceU oneGroupSpaceU ⟨[⟨0, []⟩]⟩
      = none := by
  refine ⟨by decide, by decide, by decide, ?_⟩
  simp [Nonbonded.energy?, Change.empty, Change.touchedGroupIndex,
    staticIndex, binarySearch, energyStep, Space.group?, twoGroupSpaceU,
    oneGroupSpaceU, onePotU, unitParticle, List.range_succ, List.mapM.loop]

/-- C10 amended: with the spec's identical-group-partitioning
precondition added (the two stores have the same number of groups), every
container access during evaluation is in bounds — `energy` returns a
value, never `none` — and `index2index` likewise succeeds on any two
in-range index lists. -/
theorem eval_in_bounds :
    ∀ (V A : Type) (nb : Nonbonded V A) (o n : Space V A) (c : Change),
      (∀ d ∈ c.groups, d.index < o.groups.length) →
      (∀ d ∈ c.groups, d.index < n.groups.length) →
      (∀ g ∈ o.groups, ∀ pi ∈ g, pi < o.p.length) →
      (∀ g ∈ n.groups, ∀ pi ∈ g, pi < n.p.length) →
      n.groups.length = o.groups.length →
      (nb.energy? o n c).isSome = true ∧
      (∀ i1 i2 : List Nat, (∀ i ∈ i1, i < o.p.length) →
        (∀ j ∈ i2, j < o.p.length) →
        (nb.index2index? o i1 i2).isSome = true) := by
  intro V A nb o n c hdo hdn hpo hpn hlen
  constructor
  · rw [energy?_eq_of_bounds nb o n c hdo hdn hpo hpn hlen]
    rfl
  · intro i1 i2 h1 h2
    have m1 := mapM_eq_some_filterMap (fun i => o.p[i]?) i1 (fun i hi => by
      show (o.p[i]?).isSome = true
      rw [List.getElem?_eq_getElem (h1 i hi)]
      rfl)
    have m2 := mapM_eq_some_filterMap (fun j => o.p[j]?) i2 (fun j hj => by
      show (o.p[j]?).isSome = true
      rw [List.getElem?_eq_getElem (h2 j hj)]
      rfl)
    rw [index2index?_eq_g2g nb o i1 i2 _ _ m1 m2]
    rfl

/-- Witness for C10's amended statement on two equal two-group stores. -/
theorem eval_in_bounds_witness :
    ((∀ d ∈ (⟨[⟨0, []⟩]⟩ : Change).groups,
        d.index < twoGroupSpaceU.groups.length) ∧
      (∀ g ∈ twoGroupSpaceU.groups, ∀ pi ∈ g,
        pi < twoGroupSpaceU.p.length)) ∧
    (Nonbonded.energy? onePotU twoGroupSpaceU twoGroupSpaceU
        ⟨[⟨0, []⟩]⟩).isSome = true ∧
    (Nonbonded.index2index? onePotU twoGroupSpaceU [0] [1]).isSome = true :=
  ⟨⟨by decide, by decide⟩,
    (eval_in_bounds Unit Unit onePotU twoGroupSpaceU twoGroupSpaceU
      ⟨[⟨0, []⟩]⟩ (by decide) (by decide) (by decide) (by decide) rfl).1,
    (eval_in_bounds Unit Unit onePotU twoGroupSpaceU twoGroupSpaceU
      ⟨[⟨0, []⟩]⟩ (by decide) (by decide) (by decide) (by decide) rfl).2
      [0] [1] (by decide) (by decide)⟩

end Faunus
